import Mathlib

/-!
Verification development for the planar-subdivision engine `mondrian2.py`.

The engine is shallowly embedded over exact rationals (`ℚ`): Python floats
become `ℚ`, the module constant `EPS = 1.e-12` becomes `1 / 10^12`, the
process-wide random stream becomes an explicit list of drawn choices
(`Gen`), Python's identity-keyed `set` of polygons becomes a list, and the
exception raised by `min()` on an empty sequence becomes an `Except` error.
All definitions are executable so that concrete runs can be evaluated by
`decide` / `rfl`.
-/

namespace Mondrian

/-- EPS from mondrian2.py: a very small number for comparing floats. -/
def EPS : ℚ := 1 / 1000000000000

/-- Vector: a lightweight vector class in two dimensions. -/
structure Vec where
  x : ℚ
  y : ℚ
  deriving DecidableEq, Repr

/-- Vector.__add__. -/
instance : Add Vec := ⟨fun a b => ⟨a.x + b.x, a.y + b.y⟩⟩

/-- Vector.__sub__. -/
instance : Sub Vec := ⟨fun a b => ⟨a.x - b.x, a.y - b.y⟩⟩

/-- Vector.__mul__ / __rmul__: multiply the vector by a scalar. -/
instance : SMul ℚ Vec := ⟨fun lam v => ⟨lam * v.x, lam * v.y⟩⟩

/-- Zero vector, used as the out-of-range default for list indexing
(indexing in the Python source is always in range). -/
def Vec.zero : Vec := ⟨0, 0⟩

/-- Vector.cross: z-component of the vector cross product. -/
def Vec.cross (a b : Vec) : ℚ := a.x * b.y - a.y * b.x

/-- Vector.dot: dot product. -/
def Vec.dot (a b : Vec) : ℚ := a.x * b.x + a.y * b.y

/-- Line: a simple class representing a line segment between two points in
2D; `p` is the start point, `r` the displacement to the end point. -/
structure Seg where
  p : Vec
  r : Vec
  deriving DecidableEq, Repr

/-- Default segment for out-of-range list indexing (never exercised by
in-range runs). -/
def Seg.zero : Seg := ⟨Vec.zero, Vec.zero⟩

/-- Line.from_endpoints: the Line object between points p and q. -/
def Seg.fromEndpoints (p q : Vec) : Seg := ⟨p, q - p⟩

/-- Line.intersection: the vector to the intersection point between two
line segments, or none if they do not intersect. -/
def Seg.intersection (self other : Seg) : Option Vec :=
  let p := self.p
  let r := self.r
  let q := other.p
  let s := other.r
  let rxs := r.cross s
  if rxs = 0 then
    none
  else
    let u := ((q - p).cross r) / rxs
    let t := ((q - p).cross s) / rxs
    if -EPS ≤ t ∧ t ≤ 1 + EPS ∧ -EPS ≤ u ∧ u ≤ 1 + EPS then
      some (p + t • r)
    else
      none

/-- Line.get_point_on_line: the point on the line defined by p + ur. -/
def Seg.getPointOnLine (l : Seg) (u : ℚ) : Vec := l.p + u • l.r

/-- Line.is_parallel. -/
def Seg.isParallel (self other : Seg) : Bool :=
  decide (|self.r.cross other.r| < EPS)

/-- Line.is_colinear. -/
def Seg.isColinear (self other : Seg) : Bool :=
  self.isParallel other && decide (|(self.p - other.p).cross self.r| < EPS)

/-- Polygon: an ordered sequence of vertices. -/
structure Polygon where
  vertices : List Vec
  deriving DecidableEq, Repr

/-- Polygon.n: the number of vertices. -/
def Polygon.n (P : Polygon) : ℕ := P.vertices.length

/-- One term of the shoelace sums in Polygon.get_area: the code accumulates
`s1 += x_i * y_j` and `s2 += y_i * x_j` with `j = (i+1) % n` and returns
`abs(s1 - s2) / 2`; the per-index difference `x_i*y_j - y_i*x_j` is exactly
the 2D cross product of consecutive vertices. -/
def Polygon.shoelaceSum (P : Polygon) : ℚ :=
  ((List.range P.n).map fun i =>
    (P.vertices.getD i Vec.zero).cross (P.vertices.getD ((i + 1) % P.n) Vec.zero)).sum

/-- Polygon.get_area: the area of the polygon by the shoelace algorithm. -/
def Polygon.getArea (P : Polygon) : ℚ := |P.shoelaceSum| / 2

/-- Polygon.area attribute (cached on construction in the source). -/
def Polygon.area (P : Polygon) : ℚ := P.getArea

/-- Polygon.get_edges: an ordered sequence of edges, one Line per
consecutive vertex pair `(i, (i+1) % n)`. -/
def Polygon.getEdges (P : Polygon) : List Seg :=
  (List.range P.n).map fun i =>
    Seg.fromEndpoints (P.vertices.getD i Vec.zero) (P.vertices.getD ((i + 1) % P.n) Vec.zero)

/-- Polygon.edges attribute (cached on construction in the source). -/
def Polygon.edges (P : Polygon) : List Seg := P.getEdges

/-- Endpoint `edge.p + edge.r` of an edge, as used by Polygon.split. -/
def Seg.endpoint (e : Seg) : Vec := e.p + e.r

/-- Polygon.split: the two polygons created by splitting this polygon at
`intersections = (i1, p1), (i2, p2)` (edge index and intersection point).
Python slices `edges[:i1]`, `edges[i2:]` and `edges[i1:i2]` become
`take i1`, `drop i2` and `(drop i1).take (i2 - i1)`. -/
def Polygon.split (P : Polygon) (h1 h2 : ℕ × Vec) : List Polygon :=
  let i1 := h1.1
  let p1 := h1.2
  let i2 := h2.1
  let p2 := h2.2
  let vertices1 :=
    (P.edges.take i1).map Seg.endpoint ++ [p1, p2] ++ (P.edges.drop i2).map Seg.endpoint
  let vertices2 :=
    ((P.edges.drop i1).take (i2 - i1)).map Seg.endpoint ++ [p2, p1]
  [⟨vertices1⟩, ⟨vertices2⟩]

/-- Canvas state: the list of committed Lines and the current Polygons.
Python's `set` of polygons is keyed on object identity (Polygon defines no
`__eq__`), so it behaves as a collection of the polygon objects themselves;
we model it as a list. -/
structure Canvas where
  lines : List Seg
  polygons : List Polygon
  deriving DecidableEq, Repr

/-- Canvas.__init__: the four border segments of the unit square (left,
top, right, bottom) and the single corner polygon. -/
def initCanvas : Canvas :=
  { lines := [⟨⟨0, 0⟩, ⟨0, 1⟩⟩, ⟨⟨0, 1⟩, ⟨1, 0⟩⟩, ⟨⟨1, 1⟩, ⟨0, -1⟩⟩, ⟨⟨1, 0⟩, ⟨-1, 0⟩⟩],
    polygons := [⟨[⟨0, 0⟩, ⟨0, 1⟩, ⟨1, 1⟩, ⟨1, 0⟩]⟩] }

/-- Canvas.add_line: append new_line to the list of Line objects. -/
def Canvas.addLine (c : Canvas) (newLine : Seg) : Canvas :=
  { c with lines := c.lines ++ [newLine] }

/-- Intersections collected by Canvas.split_polygons for one polygon:
`for i, edge in enumerate(polygon.edges): p = new_line.intersection(edge);
if p: intersections.append((i, p))`.  A returned Vector is always truthy
in Python, so `if p` tests for `p is not None`. -/
def collectHitsAux (newLine : Seg) : ℕ → List Seg → List (ℕ × Vec)
  | _, [] => []
  | i, e :: es =>
    match newLine.intersection e with
    | some p => (i, p) :: collectHitsAux newLine (i + 1) es
    | none => collectHitsAux newLine (i + 1) es

/-- Hit list of a candidate line against an edge list, indices from 0. -/
def collectHits (newLine : Seg) (edges : List Seg) : List (ℕ × Vec) :=
  collectHitsAux newLine 0 edges

/-- Loop body of Canvas.split_polygons over the polygon collection:
polygons intersected exactly twice are recorded in the first component
("old") and their two split parts appended to the second ("new"). -/
def splitPolygonsList (newLine : Seg) : List Polygon → List Polygon × List Polygon
  | [] => ([], [])
  | P :: ps =>
    let rest := splitPolygonsList newLine ps
    match collectHits newLine P.edges with
    | [h1, h2] => (P :: rest.1, P.split h1 h2 ++ rest.2)
    | _ => rest

/-- Canvas.split_polygons. -/
def Canvas.splitPolygons (c : Canvas) (newLine : Seg) : List Polygon × List Polygon :=
  splitPolygonsList newLine c.polygons

/-- Canvas.update_polygons: `self.polygons -= old_polygons;
self.polygons.update(new_polygons)`. -/
def Canvas.updatePolygons (c : Canvas) (oldPs newPs : List Polygon) : Canvas :=
  { c with polygons := (c.polygons.filter fun P => decide (¬ P ∈ oldPs)) ++ newPs }

/-- Canvas.get_new_line for a given random draw: two distinct existing
lines (by position `i ≠ j`) and a random point on each. -/
def Canvas.getNewLine (c : Canvas) (i j : ℕ) (u1 u2 : ℚ) : Seg :=
  Seg.fromEndpoints ((c.lines.getD i Seg.zero).getPointOnLine u1)
    ((c.lines.getD j Seg.zero).getPointOnLine u2)

/-- Axis tag: get_xy returns 'x' for a horizontal line, 'y' for vertical. -/
inductive Axis where
  | X : Axis
  | Y : Axis
  deriving DecidableEq, Repr

/-- Coordinate of a vector along an axis name (dynamic getattr). -/
def Vec.coord (v : Vec) : Axis → ℚ
  | Axis.X => v.x
  | Axis.Y => v.y

/-- get_xy from Canvas.get_new_orthogonal_line: 'x' iff `abs(r.y) < EPS`. -/
def getXY (l : Seg) : Axis :=
  if |l.r.y| < EPS then Axis.X else Axis.Y

/-- Eligible L2 candidates inside Canvas.get_new_orthogonal_line (the local
`parallel_lines` list): lines that are not colinear with line1, share its
orientation, and whose sorted axis extent contains `c`. -/
def Canvas.parallelCands (c : Canvas) (line1 : Seg) (cc : ℚ) (xy : Axis) : List Seg :=
  c.lines.filter fun l =>
    !(l.isColinear line1) && decide (getXY l = xy) &&
      decide (min (l.p.coord xy) ((l.p + l.r).coord xy) ≤ cc ∧
        cc ≤ max (l.p.coord xy) ((l.p + l.r).coord xy))

/-- End point construction of get_new_orthogonal_line: keep the start's
principal-axis coordinate and take line2's origin for the other one. -/
def orthEnd (start : Vec) (line2 : Seg) : Axis → Vec
  | Axis.X => ⟨start.x, line2.p.y⟩
  | Axis.Y => ⟨line2.p.x, start.y⟩

/-- Canvas.get_new_orthogonal_line for a given random draw: line1 is
`lines[i]`, the point on it is at parameter `u`, and line2 is the `k`-th
entry of `parallel_lines` (`random.choice` on an empty list raises; this is
modelled by `none` when no `k`-th entry exists). -/
def Canvas.getNewOrthogonalLine (c : Canvas) (i : ℕ) (u : ℚ) (k : ℕ) : Option Seg :=
  let line1 := c.lines.getD i Seg.zero
  let xy := getXY line1
  let start := line1.getPointOnLine u
  let cc := start.coord xy
  ((c.parallelCands line1 cc xy).get? k).map fun line2 =>
    Seg.fromEndpoints start (orthEnd start line2 xy)

/-- One random draw of make_painting's candidate generation, as consumed
from the modelled random stream. -/
inductive Gen where
  | free (i j : ℕ) (u1 u2 : ℚ) : Gen
  | orth (i : ℕ) (u : ℚ) (k : ℕ) : Gen
  deriving DecidableEq, Repr

/-- Candidate generation for one draw; `none` marks a draw that the real
random source can never produce for this state and mode (out-of-range
index, parameter outside `[0, 1)`, or wrong mode). -/
def genCandidate (orthogonal : Bool) (c : Canvas) : Gen → Option Seg
  | Gen.free i j u1 u2 =>
    if orthogonal = false ∧ i < c.lines.length ∧ j < c.lines.length ∧ i ≠ j ∧
        0 ≤ u1 ∧ u1 < 1 ∧ 0 ≤ u2 ∧ u2 < 1 then
      some (c.getNewLine i j u1 u2)
    else
      none
  | Gen.orth i u k =>
    if orthogonal = true ∧ i < c.lines.length ∧ 0 ≤ u ∧ u < 1 then
      c.getNewOrthogonalLine i u k
    else
      none

/-- Python truthiness of the `minarea` argument in `if minarea:`:
`None` and `0` are falsy. -/
def minareaTruthy : Option ℚ → Bool
  | none => false
  | some a => decide (a ≠ 0)

/-- Smallest polygon area: `min(polygon.area for polygon in new_polygons)`;
`none` when the generator is empty (Python raises ValueError there). -/
def smallestArea : List Polygon → Option ℚ
  | [] => none
  | P :: ps => some (ps.foldl (fun m Q => min m Q.area) P.area)

/-- Errors of a modelled run.  `valueError` is Python's ValueError from
`min()` on an empty sequence; the other two are artifacts of modelling the
random stream as a finite list of draws. -/
inductive RunErr where
  | valueError : RunErr
  | noStream : RunErr
  | badChoice : RunErr
  deriving DecidableEq, Repr

/-- Acceptance test of one candidate in make_painting's retry loop:
`if minarea: smallest = min(...); if smallest >= minarea: break;
else: break`. -/
def roundAccept (minarea : Option ℚ) (newPs : List Polygon) : Except RunErr Bool :=
  if minareaTruthy minarea then
    match smallestArea newPs with
    | none => Except.error RunErr.valueError
    | some s => Except.ok (decide (minarea.getD 0 ≤ s))
  else
    Except.ok true

/-- Committing one accepted candidate: update_polygons then add_line. -/
def Canvas.commitLine (c : Canvas) (cand : Seg) (oldPs newPs : List Polygon) : Canvas :=
  (c.updatePolygons oldPs newPs).addLine cand

/-- The `while True` retry loop of make_painting: consume draws until a
candidate is accepted, and return the committed canvas with the remaining
stream. -/
def attemptLoop (orthogonal : Bool) (minarea : Option ℚ) (c : Canvas) :
    List Gen → Except RunErr (Canvas × List Gen)
  | [] => Except.error RunErr.noStream
  | g :: rest =>
    match genCandidate orthogonal c g with
    | none => Except.error RunErr.badChoice
    | some cand =>
      let res := c.splitPolygons cand
      match roundAccept minarea res.2 with
      | Except.error e => Except.error e
      | Except.ok true => Except.ok (c.commitLine cand res.1 res.2, rest)
      | Except.ok false => attemptLoop orthogonal minarea c rest

/-- Canvas.make_painting: `nlines` insertion rounds. -/
def makePainting (orthogonal : Bool) (minarea : Option ℚ) :
    ℕ → Canvas → List Gen → Except RunErr (Canvas × List Gen)
  | 0, c, gens => Except.ok (c, gens)
  | nlines + 1, c, gens =>
    match attemptLoop orthogonal minarea c gens with
    | Except.error e => Except.error e
    | Except.ok (c', rest) => makePainting orthogonal minarea nlines c' rest

/-- Decidable equality for run results, so concrete runs can be checked by
kernel evaluation. -/
instance instDecEqExcept {ε α : Type} [DecidableEq ε] [DecidableEq α] :
    DecidableEq (Except ε α) := fun a b =>
  match a, b with
  | Except.error e1, Except.error e2 =>
    if h : e1 = e2 then isTrue (by rw [h])
    else isFalse fun hc => h (by injection hc)
  | Except.ok x, Except.ok y =>
    if h : x = y then isTrue (by rw [h])
    else isFalse fun hc => h (by injection hc)
  | Except.error e1, Except.ok y => isFalse fun hc => Except.noConfusion hc
  | Except.ok x, Except.error e2 => isFalse fun hc => Except.noConfusion hc

/-- Open path sum of cross products of consecutive vertices; closing the
path over the first vertex yields the shoelace sum (proof-side notion). -/
def pathCross : List Vec → ℚ
  | a :: b :: t => a.cross b + pathCross (b :: t)
  | _ => 0

/-- Cyclic cross-product sum of a vertex loop (proof-side notion, shown
equal to `Polygon.shoelaceSum`). -/
def loopCross (vs : List Vec) : ℚ := pathCross (vs ++ vs.take 1)

/-- Last vertex of a list, zero for the empty list (proof-side notion). -/
def lastV (l : List Vec) : Vec := l.getLastD Vec.zero

/-- First vertex of a list, zero for the empty list (proof-side notion). -/
def headV (l : List Vec) : Vec := l.headD Vec.zero

/-- Does the candidate hit the polygon's boundary exactly twice? -/
def isTwoHits (newLine : Seg) (P : Polygon) : Bool :=
  match collectHits newLine P.edges with
  | [_, _] => true
  | _ => false

/-- The split parts contributed by one polygon for one candidate: its two
halves when hit exactly twice, nothing otherwise. -/
def childrenOf (newLine : Seg) (P : Polygon) : List Polygon :=
  match collectHits newLine P.edges with
  | [h1, h2] => P.split h1 h2
  | _ => []

/-- Sum of the polygons' signed shoelace sums. -/
def sumShoelace (ps : List Polygon) : ℚ := (ps.map Polygon.shoelaceSum).sum

/-- Sum of the polygons' areas. -/
def sumArea (ps : List Polygon) : ℚ := (ps.map Polygon.area).sum

/-- One committed round of make_painting in mode `orthogonal` with floor
`minarea`: some draw yields a candidate, the acceptance test passes, and
the candidate is committed. -/
def StepMode (orthogonal : Bool) (minarea : Option ℚ) (c c' : Canvas) : Prop :=
  ∃ g cand, genCandidate orthogonal c g = some cand ∧
    roundAccept minarea (c.splitPolygons cand).2 = Except.ok true ∧
    c' = c.commitLine cand (c.splitPolygons cand).1 (c.splitPolygons cand).2

/-- One committed round of any make_painting call (either mode, any area
floor). -/
def StepAny (c c' : Canvas) : Prop := ∃ o m, StepMode o m c c'

/-- Canvas states reachable from a freshly constructed Canvas by any
sequence of accepted, committed make_painting rounds. -/
def Reachable (c : Canvas) : Prop := Relation.ReflTransGen StepAny initCanvas c

/-- One committed round of make_painting with `orthogonal=True`. -/
def StepOrth (c c' : Canvas) : Prop := ∃ m, StepMode true m c c'

/-- Canvas states reachable from a freshly constructed Canvas by rounds of
`make_painting(n, orthogonal=True)` calls. -/
def ReachableOrth (c : Canvas) : Prop := Relation.ReflTransGen StepOrth initCanvas c

/-- Membership of a point in the closed unit square. -/
def inUnitSquare (v : Vec) : Prop := 0 ≤ v.x ∧ v.x ≤ 1 ∧ 0 ≤ v.y ∧ v.y ≤ 1

instance (v : Vec) : Decidable (inUnitSquare v) :=
  inferInstanceAs (Decidable (0 ≤ v.x ∧ v.x ≤ 1 ∧ 0 ≤ v.y ∧ v.y ≤ 1))

/-- Random draws of the concrete two-round run used to analyse exact area
conservation: a generic first chord from the left to the right border,
then a candidate grazing the corner of the first chord with the right
border within the `EPS` intersection tolerance. -/
def cexGens : List Gen :=
  [Gen.free 0 2 (1/4) (1/2), Gen.free 4 2 (1 - EPS) (1/2 - EPS/2)]

/-- The canvas produced by one committed round of
`make_painting(1, orthogonal=True)` with draws `orth 0 (1/2) 0` (checked
below to be the exact output of `makePainting`): the vertical left border
is L1, the right border is the only eligible L2, and the committed
candidate is the horizontal chord at height 1/2. -/
def orthState : Canvas :=
  { lines :=
      [⟨⟨0, 0⟩, ⟨0, 1⟩⟩, ⟨⟨0, 1⟩, ⟨1, 0⟩⟩, ⟨⟨1, 1⟩, ⟨0, -1⟩⟩, ⟨⟨1, 0⟩, ⟨-1, 0⟩⟩,
        ⟨⟨0, 1/2⟩, ⟨1, 0⟩⟩],
    polygons :=
      [⟨[⟨0, 1/2⟩, ⟨1, 1/2⟩, ⟨1, 0⟩, ⟨0, 0⟩]⟩,
        ⟨[⟨0, 1⟩, ⟨1, 1⟩, ⟨1, 1/2⟩, ⟨0, 1/2⟩]⟩] }

/-- The canvas produced by the two rounds of `cexGens` (checked below to
be the exact output of `makePainting`). -/
def cexState : Canvas :=
  { lines :=
      [⟨⟨0, 0⟩, ⟨0, 1⟩⟩, ⟨⟨0, 1⟩, ⟨1, 0⟩⟩, ⟨⟨1, 1⟩, ⟨0, -1⟩⟩, ⟨⟨1, 0⟩, ⟨-1, 0⟩⟩,
        ⟨⟨0, 1/4⟩, ⟨1, 1/4⟩⟩,
        ⟨⟨1 - EPS, 1/2 - EPS/4⟩, ⟨EPS, (3/4) * EPS⟩⟩],
    polygons :=
      [⟨[⟨1 - EPS, 1/2 - EPS/4⟩, ⟨1, 1/2 + EPS/2⟩, ⟨1, 0⟩, ⟨0, 0⟩, ⟨0, 1/4⟩]⟩,
        ⟨[⟨1, 1/2⟩, ⟨1, 1/2 + EPS/2⟩, ⟨1 - EPS, 1/2 - EPS/4⟩]⟩,
        ⟨[⟨1, 1⟩, ⟨1, 1/2 + EPS/2⟩, ⟨1 - EPS, 1/2 - EPS/4⟩, ⟨0, 1/4⟩, ⟨0, 1⟩]⟩,
        ⟨[⟨1, 1/2⟩, ⟨1 - EPS, 1/2 - EPS/4⟩, ⟨1, 1/2 + EPS/2⟩]⟩] }

/-! ## Component lemmas for the vector arithmetic -/

@[simp] theorem Vec.add_x (a b : Vec) : (a + b).x = a.x + b.x := rfl

@[simp] theorem Vec.add_y (a b : Vec) : (a + b).y = a.y + b.y := rfl

@[simp] theorem Vec.sub_x (a b : Vec) : (a - b).x = a.x - b.x := rfl

@[simp] theorem Vec.sub_y (a b : Vec) : (a - b).y = a.y - b.y := rfl

@[simp] theorem Vec.smul_x (t : ℚ) (v : Vec) : (t • v).x = t * v.x := rfl

@[simp] theorem Vec.smul_y (t : ℚ) (v : Vec) : (t • v).y = t * v.y := rfl

theorem Vec.ext_xy {a b : Vec} (hx : a.x = b.x) (hy : a.y = b.y) : a = b := by
  cases a; cases b; cases hx; cases hy; rfl

theorem Vec.add_sub_self (a b : Vec) : a + (b - a) = b := by
  apply Vec.ext_xy <;> simp

/-! ## Lemmas about Line.intersection -/

/-- Every point returned by Line.intersection lies exactly on the infinite
line supporting the `other` segment (exact rational arithmetic). -/
theorem intersection_mem_line (a b : Seg) (pt : Vec)
    (h : a.intersection b = some pt) : (pt - b.p).cross b.r = 0 := by
  unfold Seg.intersection at h
  by_cases h0 : a.r.cross b.r = 0
  · simp [h0] at h
  · simp only [h0, if_false] at h
    split_ifs at h
    injection h with h
    subst h
    simp only [Vec.cross, Vec.add_x, Vec.add_y, Vec.sub_x, Vec.sub_y,
      Vec.smul_x, Vec.smul_y] at h0 ⊢
    field_simp
    ring

/-! ## Lemmas about the hit collection of Canvas.split_polygons -/

theorem collectHitsAux_mem (newLine : Seg) :
    ∀ (es : List Seg) (k i : ℕ) (p : Vec),
      (i, p) ∈ collectHitsAux newLine k es ↔
        ∃ jj : ℕ, jj < es.length ∧ i = k + jj ∧
          newLine.intersection (es.getD jj Seg.zero) = some p := by
  intro es
  induction es with
  | nil => intro k i p; simp [collectHitsAux]
  | cons e es ih =>
    intro k i p
    unfold collectHitsAux
    cases heq : newLine.intersection e with
    | some p0 =>
      simp only [List.mem_cons, Prod.mk.injEq, ih]
      constructor
      · rintro (⟨rfl, rfl⟩ | ⟨jj, hjj, rfl, hint⟩)
        · exact ⟨0, by simp, by simp, by simpa using heq⟩
        · exact ⟨jj + 1, by simpa using hjj, by omega, by simpa using hint⟩
      · rintro ⟨jj, hjj, rfl, hint⟩
        cases jj with
        | zero =>
          left
          simp only [List.getD_cons_zero] at hint
          rw [heq] at hint
          injection hint with hint
          exact ⟨by omega, hint.symm⟩
        | succ jj =>
          right
          exact ⟨jj, by simpa using hjj, by omega, by simpa using hint⟩
    | none =>
      simp only [ih]
      constructor
      · rintro ⟨jj, hjj, rfl, hint⟩
        exact ⟨jj + 1, by simpa using hjj, by omega, by simpa using hint⟩
      · rintro ⟨jj, hjj, rfl, hint⟩
        cases jj with
        | zero =>
          simp only [List.getD_cons_zero] at hint
          rw [heq] at hint
          cases hint
        | succ jj =>
          exact ⟨jj, by simpa using hjj, by omega, by simpa using hint⟩

theorem collectHitsAux_fst_le (newLine : Seg) :
    ∀ (es : List Seg) (k : ℕ), ∀ q ∈ collectHitsAux newLine k es, k ≤ q.1 := by
  intro es
  induction es with
  | nil => intro k q hq; simp [collectHitsAux] at hq
  | cons e es ih =>
    intro k q hq
    unfold collectHitsAux at hq
    cases heq : newLine.intersection e with
    | some p0 =>
      rw [heq] at hq
      rcases List.mem_cons.mp hq with h | h
      · subst h; exact le_refl k
      · exact le_trans (by omega) (ih (k + 1) q h)
    | none =>
      rw [heq] at hq
      exact le_trans (by omega) (ih (k + 1) q hq)

theorem collectHitsAux_pairwise (newLine : Seg) :
    ∀ (es : List Seg) (k : ℕ),
      (collectHitsAux newLine k es).Pairwise fun q q' => q.1 < q'.1 := by
  intro es
  induction es with
  | nil => intro k; simp [collectHitsAux]
  | cons e es ih =>
    intro k
    unfold collectHitsAux
    cases newLine.intersection e with
    | some p0 =>
      refine List.Pairwise.cons ?_ (ih (k + 1))
      intro q hq
      have := collectHitsAux_fst_le newLine es (k + 1) q hq
      omega
    | none => exact ih (k + 1)

/-- The two hit indices of a twice-hit polygon come in ascending order. -/
theorem collectHits_two_asc (newLine : Seg) (edges : List Seg)
    (h1 h2 : ℕ × Vec) (h : collectHits newLine edges = [h1, h2]) :
    h1.1 < h2.1 := by
  have hp := collectHitsAux_pairwise newLine edges 0
  rw [collectHits] at h
  rw [h] at hp
  exact (List.pairwise_cons.mp hp).1 h2 (by simp)

/-- Membership characterization of the full hit list. -/
theorem collectHits_mem (newLine : Seg) (edges : List Seg) (i : ℕ) (p : Vec) :
    (i, p) ∈ collectHits newLine edges ↔
      i < edges.length ∧ newLine.intersection (edges.getD i Seg.zero) = some p := by
  rw [collectHits, collectHitsAux_mem]
  constructor
  · rintro ⟨jj, hjj, rfl, hint⟩
    simp only [Nat.zero_add]
    exact ⟨hjj, hint⟩
  · rintro ⟨hi, hint⟩
    exact ⟨i, hi, by omega, hint⟩

/-! ## Lemmas about Polygon.get_edges -/

theorem Seg.endpoint_fromEndpoints (a b : Vec) :
    (Seg.fromEndpoints a b).endpoint = b := by
  simp [Seg.endpoint, Seg.fromEndpoints, Vec.add_sub_self]

@[simp] theorem Polygon.edges_length (P : Polygon) : P.edges.length = P.n := by
  simp [Polygon.edges, Polygon.getEdges]

theorem Polygon.edges_getD (P : Polygon) {i : ℕ} (h : i < P.n) :
    P.edges.getD i Seg.zero =
      Seg.fromEndpoints (P.vertices.getD i Vec.zero)
        (P.vertices.getD ((i + 1) % P.n) Vec.zero) := by
  have hlen : i < P.edges.length := by rw [P.edges_length]; exact h
  rw [List.getD_eq_getElem P.edges Seg.zero hlen]
  simp [Polygon.edges, Polygon.getEdges]

/-- The edge endpoints, in edge order, are the vertex loop rotated by one
position. -/
theorem Polygon.edges_endpoint_map (P : Polygon) :
    P.edges.map Seg.endpoint = P.vertices.drop 1 ++ P.vertices.take 1 := by
  have hlen : (P.edges.map Seg.endpoint).length =
      (P.vertices.drop 1 ++ P.vertices.take 1).length := by
    simp only [List.length_map, Polygon.edges_length, List.length_append,
      List.length_drop, List.length_take, Polygon.n]
    omega
  apply List.ext_getElem hlen
  intro i h1 h2
  have hi : i < P.n := by simpa [Polygon.edges_length] using h1
  have hie : i < P.edges.length := by rw [Polygon.edges_length]; exact hi
  have hvl : P.vertices.length = P.n := rfl
  rw [List.getElem_map]
  have hedge : P.edges[i] = Seg.fromEndpoints (P.vertices.getD i Vec.zero)
      (P.vertices.getD ((i + 1) % P.n) Vec.zero) := by
    simp [Polygon.edges, Polygon.getEdges]
  rw [hedge, Seg.endpoint_fromEndpoints]
  by_cases hc : i + 1 < P.n
  · have hm : (i + 1) % P.n = i + 1 := Nat.mod_eq_of_lt hc
    have hdl : i < (P.vertices.drop 1).length := by
      simp only [List.length_drop, hvl]; omega
    rw [hm, List.getElem_append_left hdl, List.getElem_drop]
    rw [List.getD_eq_getElem P.vertices Vec.zero (by omega)]
    congr 1
    omega
  · have hm : (i + 1) % P.n = 0 := by
      have hii : i + 1 = P.n := by omega
      rw [hii, Nat.mod_self]
    have hdl : (P.vertices.drop 1).length ≤ i := by
      simp only [List.length_drop, hvl]; omega
    rw [hm, List.getElem_append_right hdl]
    rw [List.getElem_take, List.getD_eq_getElem P.vertices Vec.zero (by omega)]
    congr 1
    simp only [List.length_drop, hvl]
    omega

/-! ## The pathCross / loopCross toolkit -/

theorem pathCross_single (a : Vec) : pathCross [a] = 0 := rfl

theorem pathCross_cons_cons (a b : Vec) (t : List Vec) :
    pathCross (a :: b :: t) = a.cross b + pathCross (b :: t) := rfl

@[simp] theorem lastV_single (a : Vec) : lastV [a] = a := rfl

theorem lastV_cons_cons (a b : Vec) (t : List Vec) :
    lastV (a :: b :: t) = lastV (b :: t) := by
  induction t generalizing a b with
  | nil => rfl
  | cons c t ih => rw [show a :: b :: c :: t = a :: (b :: c :: t) from rfl]; exact ih b c

theorem lastV_append_single (l : List Vec) (a : Vec) : lastV (l ++ [a]) = a := by
  induction l with
  | nil => rfl
  | cons x l ih =>
    cases l with
    | nil => rfl
    | cons b l2 =>
      rw [show (x :: b :: l2) ++ [a] = x :: ((b :: l2) ++ [a]) from by simp]
      rw [show x :: ((b :: l2) ++ [a]) = x :: (b :: (l2 ++ [a])) from by simp]
      rw [lastV_cons_cons]
      exact ih

@[simp] theorem headV_cons (a : Vec) (t : List Vec) : headV (a :: t) = a := rfl

theorem pathCross_append_cons :
    ∀ (xs : List Vec), xs ≠ [] → ∀ (y : Vec) (ys : List Vec),
      pathCross (xs ++ y :: ys) =
        pathCross xs + ((lastV xs).cross y + pathCross (y :: ys)) := by
  intro xs
  induction xs with
  | nil => intro hxs; cases hxs rfl
  | cons x xs ih =>
    intro hxs y ys
    cases xs with
    | nil => simp [pathCross_cons_cons, pathCross_single]
    | cons x2 xs2 =>
      have h2 : x2 :: xs2 ≠ [] := by simp
      have lhs : pathCross ((x :: x2 :: xs2) ++ y :: ys) =
          x.cross x2 + pathCross ((x2 :: xs2) ++ y :: ys) := rfl
      rw [lhs, ih h2 y ys, lastV_cons_cons, pathCross_cons_cons]
      ring

theorem loopCross_cons (x : Vec) (t : List Vec) :
    loopCross (x :: t) = pathCross (x :: t) + (lastV (x :: t)).cross x := by
  unfold loopCross
  rw [show (x :: t) ++ (x :: t).take 1 = (x :: t) ++ [x] from by simp]
  rw [pathCross_append_cons (x :: t) (by simp) x []]
  simp [pathCross_single]

theorem loopCross_rotate (a : Vec) (t : List Vec) :
    loopCross (t ++ [a]) = loopCross (a :: t) := by
  cases t with
  | nil => rfl
  | cons b t' =>
    have hbt : b :: t' ≠ [] := by simp
    rw [show (b :: t') ++ [a] = b :: (t' ++ [a]) from by simp,
      loopCross_cons b (t' ++ [a]), loopCross_cons a (b :: t')]
    have hlast1 : lastV (b :: (t' ++ [a])) = a := by
      rw [show b :: (t' ++ [a]) = (b :: t') ++ [a] from by simp]
      exact lastV_append_single (b :: t') a
    have hlast2 : lastV (a :: b :: t') = lastV (b :: t') := lastV_cons_cons a b t'
    rw [hlast1, hlast2,
      show b :: (t' ++ [a]) = (b :: t') ++ [a] from by simp,
      pathCross_append_cons (b :: t') hbt a [], pathCross_cons_cons a b t',
      pathCross_single]
    ring

theorem pathCross_eq_sum : ∀ (l : List Vec),
    pathCross l = ((List.range (l.length - 1)).map fun i =>
      (l.getD i Vec.zero).cross (l.getD (i + 1) Vec.zero)).sum := by
  intro l
  induction l with
  | nil => simp [pathCross]
  | cons a t ih =>
    cases t with
    | nil => simp [pathCross]
    | cons b t' =>
      rw [pathCross_cons_cons, ih]
      rw [show (a :: b :: t').length - 1 = ((b :: t').length - 1) + 1 from by
        simp]
      rw [List.range_succ_eq_map]
      simp only [List.map_cons, List.sum_cons, List.map_map]
      congr 1

/-- The shoelace sum computed by Polygon.get_area equals the cyclic
cross-product sum of the vertex loop. -/
theorem Polygon.shoelaceSum_eq_loopCross (P : Polygon) :
    P.shoelaceSum = loopCross P.vertices := by
  rcases hv : P.vertices with _ | ⟨a, t⟩
  · have hn : P.n = 0 := by simp [Polygon.n, hv]
    simp [Polygon.shoelaceSum, hn, loopCross, hv, pathCross]
  · have hn : P.n = t.length + 1 := by simp [Polygon.n, hv]
    have hvl : P.vertices.length = t.length + 1 := by simp [hv]
    rw [Polygon.shoelaceSum, hn, List.range_succ]
    simp only [List.map_append, List.sum_append, List.map_cons, List.map_nil,
      List.sum_cons, List.sum_nil]
    rw [loopCross_cons, pathCross_eq_sum]
    have hmain : ((List.range t.length).map fun i =>
          (P.vertices.getD i Vec.zero).cross
            (P.vertices.getD ((i + 1) % (t.length + 1)) Vec.zero)).sum =
        ((List.range ((a :: t).length - 1)).map fun i =>
          ((a :: t).getD i Vec.zero).cross ((a :: t).getD (i + 1) Vec.zero)).sum := by
      rw [show (a :: t).length - 1 = t.length from by simp]
      apply congrArg
      apply List.map_congr_left
      intro i hi
      have hilt : i < t.length := List.mem_range.mp hi
      have hmod : (i + 1) % (t.length + 1) = i + 1 := Nat.mod_eq_of_lt (by omega)
      rw [hmod, hv]
    rw [hmain]
    have hlast : P.vertices.getD t.length Vec.zero = lastV (a :: t) := by
      rw [hv]
      cases hq : t.length with
      | zero =>
        have : t = [] := List.length_eq_zero.mp hq
        subst this; rfl
      | succ m =>
        rw [List.getD_eq_getElem (a :: t) Vec.zero (by simp [hq])]
        rw [lastV, List.getLastD_eq_getLast?, List.getLast?_eq_getElem?]
        simp [hq]
    have hz : P.vertices.getD ((t.length + 1) % (t.length + 1)) Vec.zero = a := by
      rw [Nat.mod_self, hv]; rfl
    rw [hlast, hz]
    ring

theorem lastV_append_cons : ∀ (xs : List Vec) (y : Vec) (ys : List Vec),
    lastV (xs ++ y :: ys) = lastV (y :: ys) := by
  intro xs
  induction xs with
  | nil => intro y ys; rfl
  | cons x xs ih =>
    intro y ys
    cases xs with
    | nil => simpa using lastV_cons_cons x y ys
    | cons x2 xs2 =>
      rw [show (x :: x2 :: xs2) ++ y :: ys = x :: x2 :: (xs2 ++ y :: ys) from by simp]
      rw [lastV_cons_cons]
      exact ih y ys

/-- Cyclic sum of a nonempty concatenation, decomposed at the junctions. -/
theorem loopCross_append_cons (xs : List Vec) (hxs : xs ≠ []) (y : Vec) (ys : List Vec) :
    loopCross (xs ++ y :: ys) =
      pathCross xs + ((lastV xs).cross y + pathCross (y :: ys)) +
        (lastV (y :: ys)).cross (headV xs) := by
  obtain ⟨x, xs2, rfl⟩ := List.exists_cons_of_ne_nil hxs
  rw [show (x :: xs2) ++ y :: ys = x :: (xs2 ++ y :: ys) from by simp]
  rw [loopCross_cons]
  rw [show x :: (xs2 ++ y :: ys) = (x :: xs2) ++ y :: ys from by simp]
  rw [pathCross_append_cons (x :: xs2) (by simp) y ys]
  rw [lastV_append_cons (x :: xs2) y ys]
  rw [headV_cons]

/-- Additivity of the cyclic cross-product sum under a two-point cut: if
`p1` lies on the line of the edge entering `B` and `p2` on the line of the
edge leaving `B`, the loop `A ++ B ++ C` and its two cut-off loops have
cyclically summing cross products. -/
theorem loopCross_split (A B C : List Vec) (p1 p2 : Vec)
    (hB : B ≠ []) (hC : C ≠ [])
    (h1 : (p1 - (if A = [] then lastV C else lastV A)).cross
        (headV B - (if A = [] then lastV C else lastV A)) = 0)
    (h2 : (p2 - lastV B).cross (headV C - lastV B) = 0) :
    loopCross (A ++ p1 :: p2 :: C) + loopCross (B ++ [p2, p1]) =
      loopCross (A ++ (B ++ C)) := by
  obtain ⟨w, B2, rfl⟩ := List.exists_cons_of_ne_nil hB
  obtain ⟨z, C2, rfl⟩ := List.exists_cons_of_ne_nil hC
  simp only [headV_cons] at h1 h2
  have hT2 : loopCross ((w :: B2) ++ [p2, p1]) = pathCross (w :: B2) +
      ((lastV (w :: B2)).cross p2 + (p2.cross p1 + pathCross [p1])) +
        (lastV (p2 :: [p1])).cross (headV (w :: B2)) :=
    loopCross_append_cons (w :: B2) (by simp) p2 [p1]
  rw [show lastV (p2 :: [p1]) = p1 from rfl, headV_cons, pathCross_single] at hT2
  cases A with
  | nil =>
    have h1a : (p1 - lastV (z :: C2)).cross (w - lastV (z :: C2)) = 0 := by
      simpa using h1
    simp only [List.nil_append]
    rw [hT2, loopCross_cons p1 (p2 :: z :: C2),
      loopCross_append_cons (w :: B2) (by simp) z C2,
      pathCross_cons_cons p1 p2 (z :: C2), pathCross_cons_cons p2 z C2,
      lastV_cons_cons p1 p2 (z :: C2), lastV_cons_cons p2 z C2, headV_cons]
    simp only [Vec.cross, Vec.sub_x, Vec.sub_y] at h1a h2 ⊢
    linear_combination h1a + h2
  | cons a A2 =>
    have h1a : (p1 - lastV (a :: A2)).cross (w - lastV (a :: A2)) = 0 := by
      simpa using h1
    rw [hT2, loopCross_append_cons (a :: A2) (by simp) p1 (p2 :: z :: C2),
      show (w :: B2) ++ z :: C2 = w :: (B2 ++ z :: C2) from by simp,
      loopCross_append_cons (a :: A2) (by simp) w (B2 ++ z :: C2),
      show w :: (B2 ++ z :: C2) = (w :: B2) ++ z :: C2 from by simp,
      pathCross_append_cons (w :: B2) (by simp) z C2,
      lastV_append_cons (w :: B2) z C2,
      pathCross_cons_cons p1 p2 (z :: C2), pathCross_cons_cons p2 z C2,
      lastV_cons_cons p1 p2 (z :: C2), lastV_cons_cons p2 z C2, headV_cons]
    simp only [Vec.cross, Vec.sub_x, Vec.sub_y] at h1a h2 ⊢
    linear_combination h1a + h2

/-! ## Index bookkeeping for list slices -/

theorem getD_drop (l : List Vec) : ∀ (m i : ℕ),
    (l.drop m).getD i Vec.zero = l.getD (m + i) Vec.zero := by
  induction l with
  | nil => intro m i; simp
  | cons a t ih =>
    intro m i
    cases m with
    | zero => simp
    | succ m =>
      rw [List.drop_succ_cons, ih m i,
        show m.succ + i = (m + i) + 1 from by omega, List.getD_cons_succ]

theorem getD_take (l : List Vec) : ∀ (j i : ℕ), i < j →
    (l.take j).getD i Vec.zero = l.getD i Vec.zero := by
  induction l with
  | nil => intro j i _; simp
  | cons a t ih =>
    intro j i hij
    cases j with
    | zero => omega
    | succ j =>
      cases i with
      | zero => simp
      | succ i =>
        rw [List.take_succ_cons, List.getD_cons_succ, List.getD_cons_succ]
        exact ih j i (by omega)

theorem headV_drop (l : List Vec) : ∀ (i : ℕ),
    headV (l.drop i) = l.getD i Vec.zero := by
  induction l with
  | nil => intro i; simp [headV]
  | cons a t ih =>
    intro i
    cases i with
    | zero => rfl
    | succ i => rw [List.drop_succ_cons, ih i, List.getD_cons_succ]

theorem headV_take (l : List Vec) (j : ℕ) (hj : 0 < j) :
    headV (l.take j) = headV l := by
  cases l with
  | nil => simp
  | cons a t =>
    cases j with
    | zero => omega
    | succ j => rfl

theorem lastV_eq_getD : ∀ (l : List Vec), l ≠ [] →
    lastV l = l.getD (l.length - 1) Vec.zero := by
  intro l
  induction l with
  | nil => intro h; cases h rfl
  | cons a t ih =>
    intro _
    cases t with
    | nil => rfl
    | cons b t2 =>
      rw [lastV_cons_cons, ih (by simp)]
      rw [show (a :: b :: t2).length - 1 = ((b :: t2).length - 1) + 1 from by
        simp]
      rw [List.getD_cons_succ]

/-- Indexing the rotated vertex loop. -/
theorem Polygon.rot_getD (P : Polygon) {k : ℕ} (hk : k < P.n) :
    (P.vertices.drop 1 ++ P.vertices.take 1).getD k Vec.zero =
      P.vertices.getD ((k + 1) % P.n) Vec.zero := by
  rw [← P.edges_endpoint_map]
  have hk2 : k < (P.edges.map Seg.endpoint).length := by
    rw [List.length_map, P.edges_length]; exact hk
  rw [List.getD_eq_getElem _ _ hk2, List.getElem_map]
  have hke : k < P.edges.length := by rw [P.edges_length]; exact hk
  have hedge : P.edges[k] = Seg.fromEndpoints (P.vertices.getD k Vec.zero)
      (P.vertices.getD ((k + 1) % P.n) Vec.zero) := by
    simp [Polygon.edges, Polygon.getEdges]
  rw [hedge, Seg.endpoint_fromEndpoints]

/-- Exact conservation of the signed shoelace sum under Polygon.split,
whenever the two cut points lie on the supporting lines of the edges they
are attributed to. -/
theorem Polygon.split_shoelace_add (P : Polygon) (i1 i2 : ℕ) (p1 p2 : Vec)
    (h12 : i1 < i2) (h2n : i2 < P.n)
    (hc1 : (p1 - P.vertices.getD i1 Vec.zero).cross
        (P.vertices.getD ((i1 + 1) % P.n) Vec.zero - P.vertices.getD i1 Vec.zero) = 0)
    (hc2 : (p2 - P.vertices.getD i2 Vec.zero).cross
        (P.vertices.getD ((i2 + 1) % P.n) Vec.zero - P.vertices.getD i2 Vec.zero) = 0) :
    ((P.split (i1, p1) (i2, p2)).map Polygon.shoelaceSum).sum = P.shoelaceSum := by
  have hvl : P.vertices.length = P.n := rfl
  have hn2 : 2 ≤ P.n := by omega
  set R := P.vertices.drop 1 ++ P.vertices.take 1 with hR
  have hRlen : R.length = P.n := by
    simp only [hR, List.length_append, List.length_drop, List.length_take]
    omega
  have hBlen : ((R.drop i1).take (i2 - i1)).length = i2 - i1 := by
    simp only [List.length_take, List.length_drop, hRlen]
    omega
  have hClen : (R.drop i2).length = P.n - i2 := by
    simp only [List.length_drop, hRlen]
  have hB : (R.drop i1).take (i2 - i1) ≠ [] :=
    List.ne_nil_of_length_pos (by rw [hBlen]; omega)
  have hC : R.drop i2 ≠ [] :=
    List.ne_nil_of_length_pos (by rw [hClen]; omega)
  have hsplit : P.split (i1, p1) (i2, p2) =
      [⟨(R.take i1 ++ [p1, p2]) ++ R.drop i2⟩,
        ⟨(R.drop i1).take (i2 - i1) ++ [p2, p1]⟩] := by
    simp only [Polygon.split, hR, ← P.edges_endpoint_map, List.map_take, List.map_drop]
  -- the junction vertices in terms of the original vertex list
  have hwB : headV ((R.drop i1).take (i2 - i1)) =
      P.vertices.getD ((i1 + 1) % P.n) Vec.zero := by
    rw [headV_take _ _ (by omega), headV_drop, P.rot_getD (by omega : i1 < P.n)]
  have hzC : headV (R.drop i2) = P.vertices.getD ((i2 + 1) % P.n) Vec.zero := by
    rw [headV_drop, P.rot_getD h2n]
  have hlB : lastV ((R.drop i1).take (i2 - i1)) = P.vertices.getD i2 Vec.zero := by
    rw [lastV_eq_getD _ hB, hBlen, getD_take _ _ _ (by omega), getD_drop,
      show i1 + (i2 - i1 - 1) = i2 - 1 from by omega,
      P.rot_getD (by omega : i2 - 1 < P.n),
      show i2 - 1 + 1 = i2 from by omega, Nat.mod_eq_of_lt h2n]
  have hu : (if R.take i1 = [] then lastV (R.drop i2) else lastV (R.take i1)) =
      P.vertices.getD i1 Vec.zero := by
    by_cases h0 : i1 = 0
    · subst h0
      rw [if_pos (by simp)]
      rw [lastV_eq_getD _ hC, hClen, getD_drop,
        show i2 + (P.n - i2 - 1) = P.n - 1 from by omega,
        P.rot_getD (by omega : P.n - 1 < P.n),
        show P.n - 1 + 1 = P.n from by omega, Nat.mod_self]
    · have htne : R.take i1 ≠ [] := by
        apply List.ne_nil_of_length_pos
        rw [List.length_take, hRlen]
        omega
      rw [if_neg htne, lastV_eq_getD _ htne, List.length_take, hRlen,
        show min i1 P.n - 1 = i1 - 1 from by omega,
        getD_take _ _ _ (by omega), P.rot_getD (by omega : i1 - 1 < P.n),
        show i1 - 1 + 1 = i1 from by omega, Nat.mod_eq_of_lt (by omega)]
  have hob1 : (p1 - (if R.take i1 = [] then lastV (R.drop i2) else lastV (R.take i1))).cross
      (headV ((R.drop i1).take (i2 - i1)) -
        (if R.take i1 = [] then lastV (R.drop i2) else lastV (R.take i1))) = 0 := by
    rw [hu, hwB]; exact hc1
  have hob2 : (p2 - lastV ((R.drop i1).take (i2 - i1))).cross
      (headV (R.drop i2) - lastV ((R.drop i1).take (i2 - i1))) = 0 := by
    rw [hlB, hzC]; exact hc2
  have hkey := loopCross_split (R.take i1) ((R.drop i1).take (i2 - i1)) (R.drop i2)
    p1 p2 hB hC hob1 hob2
  have hBC : (R.drop i1).take (i2 - i1) ++ R.drop i2 = R.drop i1 := by
    have hdd : R.drop i2 = (R.drop i1).drop (i2 - i1) := by
      rw [List.drop_drop, show i1 + (i2 - i1) = i2 from by omega]
    rw [hdd, List.take_append_drop]
  have hRot : loopCross R = loopCross P.vertices := by
    rcases hv : P.vertices with _ | ⟨a, t⟩
    · simp [hR, hv]
    · rw [hR, hv]
      simpa using loopCross_rotate a t
  rw [hsplit]
  simp only [List.map_cons, List.map_nil, List.sum_cons, List.sum_nil, add_zero]
  rw [Polygon.shoelaceSum_eq_loopCross, Polygon.shoelaceSum_eq_loopCross,
    Polygon.shoelaceSum_eq_loopCross]
  calc loopCross ((R.take i1 ++ [p1, p2]) ++ R.drop i2) +
        loopCross ((R.drop i1).take (i2 - i1) ++ [p2, p1])
      = loopCross (R.take i1 ++ p1 :: p2 :: R.drop i2) +
        loopCross ((R.drop i1).take (i2 - i1) ++ [p2, p1]) := by
        rw [show (R.take i1 ++ [p1, p2]) ++ R.drop i2 =
          R.take i1 ++ p1 :: p2 :: R.drop i2 from by simp]
    _ = loopCross (R.take i1 ++ ((R.drop i1).take (i2 - i1) ++ R.drop i2)) := hkey
    _ = loopCross R := by rw [hBC, List.take_append_drop]
    _ = loopCross P.vertices := hRot

/-! ## From hit lists to split conservation -/

theorem collectHits_two_facts (newLine : Seg) (P : Polygon) (i1 i2 : ℕ) (p1 p2 : Vec)
    (h : collectHits newLine P.edges = [(i1, p1), (i2, p2)]) :
    i1 < i2 ∧ i2 < P.n ∧
      newLine.intersection (P.edges.getD i1 Seg.zero) = some p1 ∧
      newLine.intersection (P.edges.getD i2 Seg.zero) = some p2 := by
  have ha := (collectHits_mem newLine P.edges i1 p1).mp (by rw [h]; simp)
  have hb := (collectHits_mem newLine P.edges i2 p2).mp (by rw [h]; simp)
  have hlt := collectHits_two_asc newLine P.edges (i1, p1) (i2, p2) h
  exact ⟨hlt, by simpa [P.edges_length] using hb.1, ha.2, hb.2⟩

theorem intersection_edge_collinear (P : Polygon) (newLine : Seg) {i : ℕ} (hi : i < P.n)
    {pt : Vec} (h : newLine.intersection (P.edges.getD i Seg.zero) = some pt) :
    (pt - P.vertices.getD i Vec.zero).cross
      (P.vertices.getD ((i + 1) % P.n) Vec.zero - P.vertices.getD i Vec.zero) = 0 := by
  have hmem := intersection_mem_line _ _ _ h
  rw [P.edges_getD hi] at hmem
  simpa [Seg.fromEndpoints] using hmem

theorem isTwoHits_children_sum (newLine : Seg) (P : Polygon)
    (h : isTwoHits newLine P = true) :
    ((childrenOf newLine P).map Polygon.shoelaceSum).sum = P.shoelaceSum := by
  rcases hh : collectHits newLine P.edges with _ | ⟨⟨ia, pa⟩, t⟩
  · simp [isTwoHits, hh] at h
  rcases t with _ | ⟨⟨ib, pb⟩, t2⟩
  · simp [isTwoHits, hh] at h
  rcases t2 with _ | ⟨q, t3⟩
  · simp only [childrenOf, hh]
    obtain ⟨hlt, hin, hia, hib⟩ := collectHits_two_facts newLine P ia ib pa pb hh
    exact P.split_shoelace_add ia ib pa pb hlt hin
      (intersection_edge_collinear P newLine (lt_trans hlt hin) hia)
      (intersection_edge_collinear P newLine hin hib)
  · simp [isTwoHits, hh] at h

theorem isTwoHits_false_children (newLine : Seg) (P : Polygon)
    (h : isTwoHits newLine P = false) : childrenOf newLine P = [] := by
  rcases hh : collectHits newLine P.edges with _ | ⟨a, t⟩
  · simp [childrenOf, hh]
  rcases t with _ | ⟨b, t2⟩
  · simp [childrenOf, hh]
  rcases t2 with _ | ⟨q, t3⟩
  · simp [isTwoHits, hh] at h
  · simp [childrenOf, hh]

/-- Canvas.split_polygons computes exactly the twice-hit polygons and the
concatenation of their split halves. -/
theorem splitPolygonsList_eq (newLine : Seg) : ∀ (ps : List Polygon),
    splitPolygonsList newLine ps =
      (ps.filter (isTwoHits newLine), (ps.map (childrenOf newLine)).flatten) := by
  intro ps
  induction ps with
  | nil => rfl
  | cons P ps ih =>
    rcases hh : collectHits newLine P.edges with _ | ⟨a, t⟩
    · simp [splitPolygonsList, hh, ih, List.filter_cons, isTwoHits, childrenOf]
    rcases t with _ | ⟨b, t2⟩
    · simp [splitPolygonsList, hh, ih, List.filter_cons, isTwoHits, childrenOf]
    rcases t2 with _ | ⟨q, t3⟩
    · simp [splitPolygonsList, hh, ih, List.filter_cons, isTwoHits, childrenOf]
    · simp [splitPolygonsList, hh, ih, List.filter_cons, isTwoHits, childrenOf]

theorem sumShoelace_append (a b : List Polygon) :
    sumShoelace (a ++ b) = sumShoelace a + sumShoelace b := by
  simp [sumShoelace]

theorem sumShoelace_cons (P : Polygon) (ps : List Polygon) :
    sumShoelace (P :: ps) = P.shoelaceSum + sumShoelace ps := by
  simp [sumShoelace]

theorem sumShoelace_round (newLine : Seg) : ∀ (ps : List Polygon),
    sumShoelace (ps.filter fun P => !(isTwoHits newLine P)) +
      sumShoelace ((ps.map (childrenOf newLine)).flatten) = sumShoelace ps := by
  intro ps
  induction ps with
  | nil => simp [sumShoelace]
  | cons P ps ih =>
    rw [List.map_cons, List.flatten_cons, List.filter_cons]
    cases ht : isTwoHits newLine P with
    | true =>
      have hsum := isTwoHits_children_sum newLine P ht
      simp only [ht, Bool.not_true, if_neg (by simp : ¬(false = true))]
      rw [sumShoelace_append, sumShoelace_cons]
      have : sumShoelace (childrenOf newLine P) = P.shoelaceSum := hsum
      rw [this] at *
      linarith [ih]
    | false =>
      have hch := isTwoHits_false_children newLine P ht
      simp only [ht, Bool.not_false, if_true, hch, List.nil_append]
      rw [sumShoelace_cons, sumShoelace_cons]
      linarith [ih]

/-- Committing one accepted candidate conserves the signed shoelace total
of the polygon collection exactly. -/
theorem commit_sumShoelace (c : Canvas) (cand : Seg) :
    sumShoelace ((c.commitLine cand (c.splitPolygons cand).1
      (c.splitPolygons cand).2).polygons) = sumShoelace c.polygons := by
  have hchar := splitPolygonsList_eq cand c.polygons
  have hfil : (c.polygons.filter fun P =>
      decide (¬ P ∈ (c.splitPolygons cand).1)) =
      c.polygons.filter fun P => !(isTwoHits cand P) := by
    apply List.filter_congr
    intro P hP
    have hmem : P ∈ (c.splitPolygons cand).1 ↔ isTwoHits cand P = true := by
      rw [Canvas.splitPolygons, hchar]
      simp [List.mem_filter, hP]
    cases ht : isTwoHits cand P with
    | true => simp [hmem, ht]
    | false => simp [hmem, ht]
  show sumShoelace ((c.polygons.filter fun P =>
      decide (¬ P ∈ (c.splitPolygons cand).1)) ++ (c.splitPolygons cand).2) =
    sumShoelace c.polygons
  rw [hfil, sumShoelace_append]
  have hsnd : (c.splitPolygons cand).2 = (c.polygons.map (childrenOf cand)).flatten := by
    rw [Canvas.splitPolygons, hchar]
  rw [hsnd]
  exact sumShoelace_round cand c.polygons

theorem stepAny_sumShoelace {c c' : Canvas} (h : StepAny c c') :
    sumShoelace c'.polygons = sumShoelace c.polygons := by
  obtain ⟨o, m, g, cand, hgen, hacc, hc'⟩ := h
  rw [hc']
  exact commit_sumShoelace c cand

theorem sumArea_ge_half_abs : ∀ (ps : List Polygon),
    |sumShoelace ps| / 2 ≤ sumArea ps := by
  intro ps
  induction ps with
  | nil => simp [sumShoelace, sumArea]
  | cons P ps ih =>
    rw [sumShoelace_cons, show sumArea (P :: ps) = P.area + sumArea ps from by
      simp [sumArea]]
    have habs : |P.shoelaceSum + sumShoelace ps| ≤ |P.shoelaceSum| + |sumShoelace ps| :=
      abs_add _ _
    have harea : P.area = |P.shoelaceSum| / 2 := rfl
    linarith

/-! ## Runs of make_painting induce reachability -/

theorem attemptLoop_ok_step (o : Bool) (m : Option ℚ) (c : Canvas) :
    ∀ (gens : List Gen) (c' : Canvas) (rest : List Gen),
      attemptLoop o m c gens = Except.ok (c', rest) → StepMode o m c c' := by
  intro gens
  induction gens with
  | nil => intro c' rest h; simp [attemptLoop] at h
  | cons g gs ih =>
    intro c' rest h
    simp only [attemptLoop] at h
    cases hgen : genCandidate o c g with
    | none => simp only [hgen] at h; simp at h
    | some cand =>
      simp only [hgen] at h
      cases hacc : roundAccept m (c.splitPolygons cand).2 with
      | error e => simp only [hacc] at h; simp at h
      | ok b =>
        simp only [hacc] at h
        cases b with
        | true =>
          simp only [Except.ok.injEq, Prod.mk.injEq] at h
          exact ⟨g, cand, hgen, hacc, h.1.symm⟩
        | false => exact ih c' rest h

theorem makePainting_reach (o : Bool) (m : Option ℚ) :
    ∀ (n : ℕ) (c : Canvas) (gens : List Gen) (c' : Canvas) (rest : List Gen),
      makePainting o m n c gens = Except.ok (c', rest) →
        Relation.ReflTransGen StepAny c c' := by
  intro n
  induction n with
  | zero =>
    intro c gens c' rest h
    simp only [makePainting, Except.ok.injEq, Prod.mk.injEq] at h
    rw [← h.1]
  | succ n ih =>
    intro c gens c' rest h
    simp only [makePainting] at h
    cases hat : attemptLoop o m c gens with
    | error e => simp only [hat] at h; simp at h
    | ok pr =>
      obtain ⟨c1, rest1⟩ := pr
      simp only [hat] at h
      have hstep : StepMode o m c c1 := attemptLoop_ok_step o m c gens c1 rest1 hat
      exact Relation.ReflTransGen.head ⟨o, m, hstep⟩ (ih c1 rest1 c' rest h)

/-! ## Claim C1 -/

/-- Claim C1, counterexample: the claim "for every state reachable from a
fresh Canvas by accepted, committed make_painting rounds, the sum of
polygon.area over the polygons set equals 1.0 (the canvas area)" is false
on the code even in exact arithmetic: after the two concrete rounds of
`cexGens` — the second candidate grazes an edge junction within the
`±EPS = 1e-12` parameter tolerance of Line.intersection, so one "split"
child is a sliver traversed with reversed orientation — the reachable
state `cexState` has total polygon area `1 + EPS^2/2 ≠ 1`. -/
theorem claim1_area_conservation_cex :
    Reachable cexState ∧ sumArea cexState.polygons ≠ 1 := by
  constructor
  · have hrun : makePainting false none 2 initCanvas cexGens =
        Except.ok (cexState, []) := by decide!
    exact makePainting_reach false none 2 initCanvas cexGens cexState [] hrun
  · decide!

/-- Claim C1, amended: for every canvas state reachable from a freshly
constructed Canvas by any sequence of accepted, committed make_painting
rounds, the SIGNED shoelace total of the polygons set is exactly conserved
(it stays `-2`, i.e. signed area `-1`, of magnitude the canvas area), and
the sum of the polygons' absolute areas never drops below the canvas area
1; the absolute-area sum can strictly exceed 1 only through
reversed-orientation slivers admitted by the `±EPS` intersection
tolerance, as exhibited by the counterexample state. -/
theorem claim1_signed_area_conserved (c : Canvas) (h : Reachable c) :
    sumShoelace c.polygons = -2 ∧ 1 ≤ sumArea c.polygons := by
  have hs : sumShoelace c.polygons = -2 := by
    induction h with
    | refl => decide!
    | tail hsteps hstep ih => rw [stepAny_sumShoelace hstep]; exact ih
  refine ⟨hs, ?_⟩
  have hge := sumArea_ge_half_abs c.polygons
  rw [hs] at hge
  have habs : |(-2 : ℚ)| / 2 = 1 := by norm_num
  linarith [hge, habs.symm.le]

/-- Claim C1, witness: the amended theorem applied to the freshly
constructed Canvas itself. -/
theorem claim1_signed_area_conserved_witness :
    sumShoelace initCanvas.polygons = -2 ∧ 1 ≤ sumArea initCanvas.polygons :=
  claim1_signed_area_conserved initCanvas Relation.ReflTransGen.refl

/-! ## Claim C2 -/

/-- Claim C2: the claim states that with `min_area` set a candidate whose
`added` list is empty is accepted vacuously and that make_painting never
raises.  The code instead calls Python's `min()` on an empty generator and
raises ValueError: from a fresh Canvas, the draw `free 0 2 0 (1/2)` is a
valid random outcome producing the candidate from `(0,0)` (corner of the
left border) to `(1,1/2)` (on the right border), which hits the square's
boundary on three edges (the corner counts for two), so `split_polygons`
returns no added polygons, and the round with `minarea = 1/100` raises. -/
theorem claim2_empty_added_raises :
    genCandidate false initCanvas (Gen.free 0 2 0 (1/2)) =
        some ⟨⟨0, 0⟩, ⟨1, 1/2⟩⟩ ∧
      initCanvas.splitPolygons ⟨⟨0, 0⟩, ⟨1, 1/2⟩⟩ = ([], []) ∧
      makePainting false (some (1/100)) 1 initCanvas [Gen.free 0 2 0 (1/2)] =
        Except.error RunErr.valueError :=
  ⟨by decide!, by decide!, by decide!⟩

/-! ## Claims C9 and C10 -/

theorem roundAccept_none (ps : List Polygon) :
    roundAccept none ps = Except.ok true := rfl

theorem roundAccept_zero (ps : List Polygon) :
    roundAccept (some 0) ps = Except.ok true := by
  simp [roundAccept, minareaTruthy]

theorem attemptLoop_none_ok (o : Bool) (c : Canvas) :
    ∀ (gens : List Gen) (c' : Canvas) (rest : List Gen),
      attemptLoop o none c gens = Except.ok (c', rest) →
        c'.lines.length = c.lines.length + 1 ∧
          gens.length = rest.length + 1 := by
  intro gens
  cases gens with
  | nil => intro c' rest h; simp [attemptLoop] at h
  | cons g gs =>
    intro c' rest h
    simp only [attemptLoop] at h
    cases hgen : genCandidate o c g with
    | none => simp only [hgen] at h; simp at h
    | some cand =>
      simp only [hgen, roundAccept_none] at h
      simp only [Except.ok.injEq, Prod.mk.injEq] at h
      constructor
      · rw [← h.1]
        simp [Canvas.commitLine, Canvas.addLine, Canvas.updatePolygons]
      · rw [← h.2]
        simp

theorem attemptLoop_none_ne_valueError (o : Bool) (c : Canvas) :
    ∀ gens : List Gen,
      attemptLoop o none c gens ≠ Except.error RunErr.valueError := by
  intro gens
  cases gens with
  | nil => simp [attemptLoop]
  | cons g gs =>
    simp only [attemptLoop]
    cases hgen : genCandidate o c g with
    | none => simp
    | some cand => simp [roundAccept_none]

/-- Claim C9: with no area floor every round of make_painting consumes
exactly one draw and commits exactly one candidate — runs are total apart
from the stream-modelling artifacts, never raise the empty-minimum error,
append exactly `n` segments over `n` rounds, and a candidate that splits
zero polygons is still committed with the polygons set unchanged. -/
theorem claim9_no_floor_rounds :
    (∀ (o : Bool) (n : ℕ) (c : Canvas) (gens : List Gen) (c' : Canvas) (rest : List Gen),
        makePainting o none n c gens = Except.ok (c', rest) →
          c'.lines.length = c.lines.length + n ∧ gens.length = rest.length + n) ∧
      (∀ (o : Bool) (n : ℕ) (c : Canvas) (gens : List Gen),
        makePainting o none n c gens ≠ Except.error RunErr.valueError) ∧
      (∀ (o : Bool) (c : Canvas) (g : Gen) (cand : Seg) (gens : List Gen),
        genCandidate o c g = some cand →
          c.splitPolygons cand = ([], []) →
          makePainting o none 1 c (g :: gens) =
            Except.ok ({ lines := c.lines ++ [cand], polygons := c.polygons }, gens)) := by
  refine ⟨?_, ?_, ?_⟩
  · intro o n
    induction n with
    | zero =>
      intro c gens c' rest h
      simp only [makePainting, Except.ok.injEq, Prod.mk.injEq] at h
      obtain ⟨rfl, rfl⟩ := h
      simp
    | succ n ih =>
      intro c gens c' rest h
      simp only [makePainting] at h
      cases hat : attemptLoop o none c gens with
      | error e => simp only [hat] at h; simp at h
      | ok pr =>
        obtain ⟨c1, rest1⟩ := pr
        simp only [hat] at h
        have h1 := attemptLoop_none_ok o c gens c1 rest1 hat
        have h2 := ih c1 rest1 c' rest h
        omega
  · intro o n
    induction n with
    | zero => intro c gens; simp [makePainting]
    | succ n ih =>
      intro c gens
      simp only [makePainting]
      cases hat : attemptLoop o none c gens with
      | error e =>
        intro hcon
        simp only at hcon
        rw [hcon] at hat
        exact attemptLoop_none_ne_valueError o c gens hat
      | ok pr => exact ih pr.1 pr.2
  · intro o c g cand gens hgen hsplit
    simp only [makePainting, attemptLoop, hgen, hsplit, roundAccept_none]
    simp [Canvas.commitLine, Canvas.updatePolygons, Canvas.addLine]

/-- Claim C9, witness: one round from the fresh canvas with the
corner-grazing candidate that splits no polygon; the polygons set is
unchanged while the segment is appended. -/
theorem claim9_no_floor_rounds_witness :
    makePainting false none 1 initCanvas [Gen.free 0 2 0 (1/2)] =
      Except.ok
        ({ lines := initCanvas.lines ++ [⟨⟨0, 0⟩, ⟨1, 1/2⟩⟩],
           polygons := initCanvas.polygons }, []) :=
  claim9_no_floor_rounds.2.2 false initCanvas (Gen.free 0 2 0 (1/2))
    ⟨⟨0, 0⟩, ⟨1, 1/2⟩⟩ [] (by decide!) (by decide!)

theorem attemptLoop_minarea_zero (o : Bool) (c : Canvas) :
    ∀ gens : List Gen,
      attemptLoop o (some 0) c gens = attemptLoop o none c gens := by
  intro gens
  induction gens with
  | nil => rfl
  | cons g gs ih =>
    simp only [attemptLoop]
    cases hgen : genCandidate o c g with
    | none => rfl
    | some cand => simp only [roundAccept_zero, roundAccept_none]

/-- Claim C10: make_painting with `minarea = 0` is extensionally equal to
make_painting with no area floor on every state, mode, round count and
random stream: Python's `if minarea:` is false for `0`, so the area check
is skipped entirely. -/
theorem claim10_minarea_zero_eq_none (o : Bool) :
    ∀ (n : ℕ) (c : Canvas) (gens : List Gen),
      makePainting o (some 0) n c gens = makePainting o none n c gens := by
  intro n
  induction n with
  | zero => intro c gens; rfl
  | succ n ih =>
    intro c gens
    simp only [makePainting, attemptLoop_minarea_zero]
    cases attemptLoop o none c gens with
    | error e => rfl
    | ok pr => exact ih pr.1 pr.2

/-! ## Claim C3 -/

/-- Claim C3: Line.intersection returns none exactly when `rxs = r × s` is
exactly zero (parallel, including colinear overlap); otherwise, with
`u = (q − p) × r / rxs` and `t = (q − p) × s / rxs`, it returns the point
`p + t·r` when both `t` and `u` lie in `[−EPS, 1 + EPS]` (EPS = 1e-12) and
none otherwise. -/
theorem claim3_intersection_characterization (a b : Seg) :
    (a.r.cross b.r = 0 → a.intersection b = none) ∧
    (a.r.cross b.r ≠ 0 →
      ((-EPS ≤ ((b.p - a.p).cross b.r) / (a.r.cross b.r) ∧
          ((b.p - a.p).cross b.r) / (a.r.cross b.r) ≤ 1 + EPS ∧
          -EPS ≤ ((b.p - a.p).cross a.r) / (a.r.cross b.r) ∧
          ((b.p - a.p).cross a.r) / (a.r.cross b.r) ≤ 1 + EPS) →
        a.intersection b =
          some (a.p + (((b.p - a.p).cross b.r) / (a.r.cross b.r)) • a.r)) ∧
      (¬(-EPS ≤ ((b.p - a.p).cross b.r) / (a.r.cross b.r) ∧
          ((b.p - a.p).cross b.r) / (a.r.cross b.r) ≤ 1 + EPS ∧
          -EPS ≤ ((b.p - a.p).cross a.r) / (a.r.cross b.r) ∧
          ((b.p - a.p).cross a.r) / (a.r.cross b.r) ≤ 1 + EPS) →
        a.intersection b = none)) := by
  refine ⟨fun h0 => by simp [Seg.intersection, h0], fun h0 => ⟨fun hb => ?_, fun hb => ?_⟩⟩
  · simp only [Seg.intersection, if_neg h0]
    rw [if_pos hb]
  · simp only [Seg.intersection, if_neg h0]
    rw [if_neg hb]

/-- Claim C3, witness: the specification's example — the horizontal unit
segment meets the vertical segment through `(1/2, -1)`–`(1/2, 1)` at
`(1/2, 0)`, in the non-parallel branch. -/
theorem claim3_intersection_characterization_witness :
    Seg.intersection ⟨⟨0, 0⟩, ⟨1, 0⟩⟩ ⟨⟨1/2, -1⟩, ⟨0, 2⟩⟩ = some ⟨1/2, 0⟩ ∧
      Vec.cross (⟨1, 0⟩ : Vec) (⟨0, 2⟩ : Vec) ≠ 0 := by
  have h := (claim3_intersection_characterization ⟨⟨0, 0⟩, ⟨1, 0⟩⟩
    ⟨⟨1/2, -1⟩, ⟨0, 2⟩⟩).2 (by decide!)
  exact ⟨(h.1 (by decide!)).trans (by decide!), by decide!⟩

/-! ## Claim C4 -/

/-- Claim C4: split_polygons removes exactly the polygons hit exactly
twice by the candidate (hits per Line.intersection, one per edge, indices
in ascending order) and adds exactly their two split halves; polygons with
0, 1 or more than 2 hits contribute to neither component, and the result
is a pure function of the state — the polygons and lines are unchanged. -/
theorem claim4_splitPolygons_characterization (c : Canvas) (cand : Seg) :
    c.splitPolygons cand =
        (c.polygons.filter (isTwoHits cand),
          (c.polygons.map (childrenOf cand)).flatten) ∧
      (∀ (P : Polygon) (i : ℕ) (p : Vec),
        (i, p) ∈ collectHits cand P.edges ↔
          i < P.edges.length ∧
            cand.intersection (P.edges.getD i Seg.zero) = some p) ∧
      (∀ (P : Polygon) (h1 h2 : ℕ × Vec),
        collectHits cand P.edges = [h1, h2] →
          h1.1 < h2.1 ∧ childrenOf cand P = P.split h1 h2) := by
  refine ⟨splitPolygonsList_eq cand c.polygons,
    fun P i p => collectHits_mem cand P.edges i p, fun P h1 h2 hh => ?_⟩
  exact ⟨collectHits_two_asc cand P.edges h1 h2 hh, by simp [childrenOf, hh]⟩

/-- Claim C4, witness: on the fresh canvas the chord from `(0, 1/4)` to
`(1, 1/2)` hits the unit-square polygon on edges 0 and 2, in ascending
order, and its contribution is exactly the polygon's split. -/
theorem claim4_splitPolygons_characterization_witness :
    (0 : ℕ) < 2 ∧
      childrenOf (⟨⟨0, 1/4⟩, ⟨1, 1/4⟩⟩ : Seg) ⟨[⟨0, 0⟩, ⟨0, 1⟩, ⟨1, 1⟩, ⟨1, 0⟩]⟩ =
        Polygon.split ⟨[⟨0, 0⟩, ⟨0, 1⟩, ⟨1, 1⟩, ⟨1, 0⟩]⟩ (0, ⟨0, 1/4⟩) (2, ⟨1, 1/2⟩) :=
  (claim4_splitPolygons_characterization initCanvas ⟨⟨0, 1/4⟩, ⟨1, 1/4⟩⟩).2.2
    ⟨[⟨0, 0⟩, ⟨0, 1⟩, ⟨1, 1⟩, ⟨1, 0⟩]⟩ (0, ⟨0, 1/4⟩) (2, ⟨1, 1/2⟩) (by decide!)

/-! ## Claim C5 -/

theorem take_eq_range_map {α : Type} (d : α) (l : List α) (m : ℕ) (hm : m ≤ l.length) :
    l.take m = (List.range m).map fun k => l.getD k d := by
  have hlen : (l.take m).length = ((List.range m).map fun k => l.getD k d).length := by
    simp [List.length_take]
    omega
  apply List.ext_getElem hlen
  intro i h1 h2
  have hil : i < l.length := by
    simp only [List.length_take] at h1
    omega
  rw [List.getElem_take, List.getElem_map, List.getElem_range,
    List.getD_eq_getElem l d hil]

theorem drop_eq_range_map {α : Type} (d : α) (l : List α) (m : ℕ) :
    l.drop m = (List.range (l.length - m)).map fun k => l.getD (m + k) d := by
  have hlen : (l.drop m).length = ((List.range (l.length - m)).map fun k =>
      l.getD (m + k) d).length := by
    simp [List.length_drop]
  apply List.ext_getElem hlen
  intro i h1 h2
  have hil : m + i < l.length := by
    simp only [List.length_drop] at h1
    omega
  rw [List.getElem_drop, List.getElem_map, List.getElem_range,
    List.getD_eq_getElem l d hil]

/-- Claim C5: for a polygon with at least three vertices and a cut with
`i1 < i2 < n`, Polygon.split returns exactly two polygons: the first with
vertex list `[endpoint of edges[k] for k in 0..i1-1] ++ [p1, p2] ++
[endpoint of edges[k] for k in i2..n-1]`, the second with vertex list
`[endpoint of edges[k] for k in i1..i2-1] ++ [p2, p1]`, where the endpoint
of an edge is `edge.p + edge.r`. -/
theorem claim5_split_vertex_lists (P : Polygon) (i1 i2 : ℕ) (p1 p2 : Vec)
    (hn : 3 ≤ P.n) (h12 : i1 < i2) (h2n : i2 < P.n) :
    P.split (i1, p1) (i2, p2) =
      [⟨((List.range i1).map fun k => (P.edges.getD k Seg.zero).endpoint) ++ [p1, p2] ++
          ((List.range (P.n - i2)).map fun k => (P.edges.getD (i2 + k) Seg.zero).endpoint)⟩,
        ⟨((List.range (i2 - i1)).map fun k =>
          (P.edges.getD (i1 + k) Seg.zero).endpoint) ++ [p2, p1]⟩] := by
  have hel : P.edges.length = P.n := P.edges_length
  have htk : P.edges.take i1 = (List.range i1).map fun k => P.edges.getD k Seg.zero :=
    take_eq_range_map Seg.zero P.edges i1 (by omega)
  have hdp : P.edges.drop i2 = (List.range (P.n - i2)).map fun k =>
      P.edges.getD (i2 + k) Seg.zero := by
    rw [drop_eq_range_map Seg.zero P.edges i2, hel]
  have hmid : (P.edges.drop i1).take (i2 - i1) = (List.range (i2 - i1)).map fun k =>
      P.edges.getD (i1 + k) Seg.zero := by
    rw [take_eq_range_map Seg.zero (P.edges.drop i1) (i2 - i1)
      (by simp only [List.length_drop, hel]; omega)]
    apply List.map_congr_left
    intro k _
    rw [drop_eq_range_map Seg.zero P.edges i1, hel]
    by_cases hk : k < P.n - i1
    · rw [List.getD_eq_getElem _ _ (by simp [hk]), List.getElem_map, List.getElem_range]
    · rw [List.getD_eq_default _ _ (by simp; omega),
        List.getD_eq_default _ _ (by rw [hel]; omega)]
  simp only [Polygon.split, htk, hdp, hmid, List.map_map, List.map_append]
  rfl

/-- Claim C5, witness: the unit square cut on edges 0 and 2 at the edge
midpoints. -/
theorem claim5_split_vertex_lists_witness :
    Polygon.split ⟨[⟨0, 0⟩, ⟨0, 1⟩, ⟨1, 1⟩, ⟨1, 0⟩]⟩ (0, ⟨0, 1/2⟩) (2, ⟨1, 1/2⟩) =
      [⟨[⟨0, 1/2⟩, ⟨1, 1/2⟩, ⟨1, 0⟩, ⟨0, 0⟩]⟩,
        ⟨[⟨0, 1⟩, ⟨1, 1⟩, ⟨1, 1/2⟩, ⟨0, 1/2⟩]⟩] :=
  (claim5_split_vertex_lists ⟨[⟨0, 0⟩, ⟨0, 1⟩, ⟨1, 1⟩, ⟨1, 0⟩]⟩ 0 2 ⟨0, 1/2⟩ ⟨1, 1/2⟩
    (by decide!) (by decide!) (by decide!)).trans (by decide!)

/-! ## Claim C6 -/

/-- Claim C6: for a cut of a polygon whose two cut points lie on the cut
edges (`p = edge.p + t·edge.r` with `t ∈ [0, 1]`) and whose two children
are coherently oriented (both shoelace sums of one sign — the formal
content of the chord lying inside a simple polygon so that both children
are simple), the two areas returned by Polygon.get_area sum exactly to the
parent's area in exact rational arithmetic. -/
theorem claim6_split_area_sum (P : Polygon) (i1 i2 : ℕ) (p1 p2 : Vec) (t1 t2 : ℚ)
    (h12 : i1 < i2) (h2n : i2 < P.n)
    (ht1 : 0 ≤ t1 ∧ t1 ≤ 1) (ht2 : 0 ≤ t2 ∧ t2 ≤ 1)
    (hp1 : p1 = (P.edges.getD i1 Seg.zero).getPointOnLine t1)
    (hp2 : p2 = (P.edges.getD i2 Seg.zero).getPointOnLine t2)
    (hsign : (∀ Q ∈ P.split (i1, p1) (i2, p2), 0 ≤ Q.shoelaceSum) ∨
      (∀ Q ∈ P.split (i1, p1) (i2, p2), Q.shoelaceSum ≤ 0)) :
    ((P.split (i1, p1) (i2, p2)).map Polygon.area).sum = P.area := by
  have hcl1 : (p1 - P.vertices.getD i1 Vec.zero).cross
      (P.vertices.getD ((i1 + 1) % P.n) Vec.zero - P.vertices.getD i1 Vec.zero) = 0 := by
    rw [hp1, P.edges_getD (lt_trans h12 h2n)]
    simp only [Seg.getPointOnLine, Seg.fromEndpoints, Vec.cross, Vec.add_x, Vec.add_y,
      Vec.sub_x, Vec.sub_y, Vec.smul_x, Vec.smul_y]
    ring
  have hcl2 : (p2 - P.vertices.getD i2 Vec.zero).cross
      (P.vertices.getD ((i2 + 1) % P.n) Vec.zero - P.vertices.getD i2 Vec.zero) = 0 := by
    rw [hp2, P.edges_getD h2n]
    simp only [Seg.getPointOnLine, Seg.fromEndpoints, Vec.cross, Vec.add_x, Vec.add_y,
      Vec.sub_x, Vec.sub_y, Vec.smul_x, Vec.smul_y]
    ring
  have hadd := P.split_shoelace_add i1 i2 p1 p2 h12 h2n hcl1 hcl2
  obtain ⟨A, B, hAB⟩ : ∃ A B, P.split (i1, p1) (i2, p2) = [A, B] := ⟨_, _, rfl⟩
  rw [hAB] at hadd hsign ⊢
  simp only [List.map_cons, List.map_nil, List.sum_cons, List.sum_nil, add_zero] at hadd ⊢
  have harea : ∀ Q : Polygon, Q.area = |Q.shoelaceSum| / 2 := fun Q => rfl
  rw [harea A, harea B, harea P, ← hadd]
  rcases hsign with hpos | hneg
  · have h1 := hpos A (by simp)
    have h2 := hpos B (by simp)
    rw [abs_of_nonneg h1, abs_of_nonneg h2, abs_of_nonneg (by linarith)]
    ring
  · have h1 := hneg A (by simp)
    have h2 := hneg B (by simp)
    rw [abs_of_nonpos h1, abs_of_nonpos h2, abs_of_nonpos (by linarith)]
    ring

/-- Claim C6, witness: the unit square cut at the midpoints of edges 0 and
2; both children are traversed clockwise like the parent, and the two
areas 1/2 sum to the parent's area 1. -/
theorem claim6_split_area_sum_witness :
    ((Polygon.split ⟨[⟨0, 0⟩, ⟨0, 1⟩, ⟨1, 1⟩, ⟨1, 0⟩]⟩
        (0, ⟨0, 1/2⟩) (2, ⟨1, 1/2⟩)).map Polygon.area).sum =
      Polygon.area ⟨[⟨0, 0⟩, ⟨0, 1⟩, ⟨1, 1⟩, ⟨1, 0⟩]⟩ :=
  claim6_split_area_sum ⟨[⟨0, 0⟩, ⟨0, 1⟩, ⟨1, 1⟩, ⟨1, 0⟩]⟩ 0 2 ⟨0, 1/2⟩ ⟨1, 1/2⟩
    (1/2) (1/2) (by decide!) (by decide!) (by decide!) (by decide!)
    (by decide!) (by decide!) (Or.inr (by decide!))

/-! ## Claim C7 -/

theorem genOrth_axis_aligned (c : Canvas) (i k : ℕ) (u : ℚ) (cand : Seg)
    (h : c.getNewOrthogonalLine i u k = some cand) :
    cand.r.x = 0 ∨ cand.r.y = 0 := by
  simp only [Canvas.getNewOrthogonalLine, Option.map_eq_some'] at h
  obtain ⟨line2, hl2, hcand⟩ := h
  rw [← hcand]
  cases hxy : getXY (c.lines.getD i Seg.zero) with
  | X =>
    left
    simp [hxy, Seg.fromEndpoints, orthEnd]
  | Y =>
    right
    simp [hxy, Seg.fromEndpoints, orthEnd]

theorem stepOrth_last_axis (c c' : Canvas) (h : StepOrth c c') :
    ∃ cand, c'.lines = c.lines ++ [cand] ∧ (cand.r.x = 0 ∨ cand.r.y = 0) := by
  obtain ⟨m, g, cand, hgen, hacc, hc'⟩ := h
  refine ⟨cand, by rw [hc']; rfl, ?_⟩
  cases g with
  | free i j u1 u2 =>
    exfalso
    simp [genCandidate] at hgen
  | orth i u k =>
    simp only [genCandidate] at hgen
    by_cases hcond : i < c.lines.length ∧ 0 ≤ u ∧ u < 1
    · rw [if_pos (⟨trivial, hcond⟩ : True ∧ i < c.lines.length ∧ 0 ≤ u ∧ u < 1)] at hgen
      exact genOrth_axis_aligned c i k u cand hgen
    · rw [if_neg (by simpa using hcond)] at hgen
      exact Option.noConfusion hgen

/-- Claim C7: in every run of make_painting with `orthogonal=True` from a
freshly constructed Canvas, every segment beyond the initial four border
segments has an exactly zero x-displacement or an exactly zero
y-displacement (hence in particular within any tolerance): orthogonal mode
only ever commits axis-aligned segments. -/
theorem claim7_orthogonal_axis_aligned (c : Canvas) (h : ReachableOrth c) :
    ∀ s ∈ c.lines.drop 4, s.r.x = 0 ∨ s.r.y = 0 := by
  have key : 4 ≤ c.lines.length ∧ ∀ s ∈ c.lines.drop 4, s.r.x = 0 ∨ s.r.y = 0 := by
    induction h with
    | refl =>
      refine ⟨by simp [initCanvas], fun s hs => ?_⟩
      simp [initCanvas] at hs
    | tail hsteps hstep ih =>
      obtain ⟨cand, hlines, hax⟩ := stepOrth_last_axis _ _ hstep
      refine ⟨by rw [hlines]; simp; omega, fun s hs => ?_⟩
      rw [hlines, List.drop_append_of_le_length ih.1] at hs
      rcases List.mem_append.mp hs with hmem | hmem
      · exact ih.2 s hmem
      · rw [List.mem_singleton.mp hmem]
        exact hax
  exact key.2

theorem makePainting_reach_orth (m : Option ℚ) :
    ∀ (n : ℕ) (c : Canvas) (gens : List Gen) (c' : Canvas) (rest : List Gen),
      makePainting true m n c gens = Except.ok (c', rest) →
        Relation.ReflTransGen StepOrth c c' := by
  intro n
  induction n with
  | zero =>
    intro c gens c' rest h
    simp only [makePainting, Except.ok.injEq, Prod.mk.injEq] at h
    rw [← h.1]
  | succ n ih =>
    intro c gens c' rest h
    simp only [makePainting] at h
    cases hat : attemptLoop true m c gens with
    | error e => simp only [hat] at h; simp at h
    | ok pr =>
      obtain ⟨c1, rest1⟩ := pr
      simp only [hat] at h
      have hstep : StepMode true m c c1 := attemptLoop_ok_step true m c gens c1 rest1 hat
      exact Relation.ReflTransGen.head ⟨m, hstep⟩ (ih c1 rest1 c' rest h)

/-- Claim C7, witness: the segment committed by one orthogonal round from
the fresh canvas (the chord at height 1/2) is axis-aligned; it is the only
member of `orthState.lines.drop 4`, and `orthState` is reached by
`make_painting(1, orthogonal=True)`. -/
theorem claim7_orthogonal_axis_aligned_witness :
    ((⟨⟨0, 1/2⟩, ⟨1, 0⟩⟩ : Seg).r.x = 0 ∨ (⟨⟨0, 1/2⟩, ⟨1, 0⟩⟩ : Seg).r.y = 0) := by
  have hrun : makePainting true none 1 initCanvas [Gen.orth 0 (1/2) 0] =
      Except.ok (orthState, []) := by decide!
  have hreach : ReachableOrth orthState :=
    makePainting_reach_orth none 1 initCanvas [Gen.orth 0 (1/2) 0] orthState [] hrun
  exact claim7_orthogonal_axis_aligned orthState hreach ⟨⟨0, 1/2⟩, ⟨1, 0⟩⟩ (by decide!)

/-! ## Claim C8 -/

theorem mem_filter_ne_nil {α : Type} (l : List α) (pred : α → Bool) (b : α)
    (hm : b ∈ l) (hp : pred b = true) : l.filter pred ≠ [] :=
  List.ne_nil_of_mem (List.mem_filter.mpr ⟨hm, hp⟩)

/-- A border of the matching orientation that is not within colinearity
tolerance of L1 and whose extent contains the sampled coordinate passes
the `parallel_lines` filter of get_new_orthogonal_line. -/
theorem border_pred_true (line1 b : Seg) (cc : ℚ) (xy : Axis)
    (hxyb : getXY b = xy)
    (hncol : EPS ≤ |(b.p - line1.p).cross b.r|)
    (hlo : min (b.p.coord xy) ((b.p + b.r).coord xy) ≤ cc)
    (hhi : cc ≤ max (b.p.coord xy) ((b.p + b.r).coord xy)) :
    (!(b.isColinear line1) && decide (getXY b = xy) &&
      decide (min (b.p.coord xy) ((b.p + b.r).coord xy) ≤ cc ∧
        cc ≤ max (b.p.coord xy) ((b.p + b.r).coord xy))) = true := by
  have h2 : decide (|(b.p - line1.p).cross b.r| < EPS) = false :=
    decide_eq_false (not_lt.mpr hncol)
  simp [Seg.isColinear, h2, hxyb, hlo, hhi]

/-- Claim C8: whenever the segments list contains the four unit-square
border segments created at initialization and every segment's endpoints
lie in the unit square, then for every choice of L1 among the segments and
every sampled parameter `u ∈ [0, 1]`, the eligible-L2 candidate list built
by get_new_orthogonal_line is non-empty — the selection step never draws
from an empty list, so orthogonal generation never fails. -/
theorem claim8_orthogonal_candidates_nonempty (c : Canvas) (line1 : Seg) (u : ℚ)
    (hborders : ∀ b ∈ initCanvas.lines, b ∈ c.lines)
    (hsquare : ∀ l ∈ c.lines, inUnitSquare l.p ∧ inUnitSquare (l.p + l.r))
    (hline1 : line1 ∈ c.lines) (hu0 : 0 ≤ u) (hu1 : u ≤ 1) :
    c.parallelCands line1 ((line1.getPointOnLine u).coord (getXY line1))
      (getXY line1) ≠ [] := by
  obtain ⟨hp, hq⟩ := hsquare line1 hline1
  simp only [inUnitSquare, Vec.add_x, Vec.add_y] at hp hq
  have hE0 : (0 : ℚ) < EPS := by decide!
  have hE1 : 2 * EPS ≤ 1 := by decide!
  have hu' : (0 : ℚ) ≤ 1 - u := by linarith
  cases hxy : getXY line1 with
  | X =>
    have hcc : (line1.getPointOnLine u).coord Axis.X = line1.p.x + u * line1.r.x := by
      simp [Seg.getPointOnLine, Vec.coord]
    have hcc0 : 0 ≤ line1.p.x + u * line1.r.x := by
      nlinarith [mul_nonneg hu' hp.1, mul_nonneg hu0 hq.1]
    have hcc1 : line1.p.x + u * line1.r.x ≤ 1 := by
      nlinarith [mul_nonneg hu' (by linarith [hp.2.1] : (0 : ℚ) ≤ 1 - line1.p.x),
        mul_nonneg hu0 (by linarith [hq.2.1] : (0 : ℚ) ≤ 1 - (line1.p.x + line1.r.x))]
    rw [hcc]
    simp only [Canvas.parallelCands]
    by_cases htop : |line1.p.y - 1| < EPS
    · apply mem_filter_ne_nil _ _ (⟨⟨1, 0⟩, ⟨-1, 0⟩⟩ : Seg) (hborders _ (by decide!))
      apply border_pred_true
      · decide!
      · have hv : ((⟨⟨1, 0⟩, ⟨-1, 0⟩⟩ : Seg).p - line1.p).cross
            (⟨⟨1, 0⟩, ⟨-1, 0⟩⟩ : Seg).r = -line1.p.y := by
          simp [Vec.cross]
        rw [hv, abs_neg]
        have h1m := (abs_lt.mp htop).1
        rw [abs_of_nonneg (by linarith)]
        linarith
      · simp only [Vec.coord, Vec.add_x]
        norm_num
        linarith
      · simp only [Vec.coord, Vec.add_x]
        norm_num
        linarith
    · apply mem_filter_ne_nil _ _ (⟨⟨0, 1⟩, ⟨1, 0⟩⟩ : Seg) (hborders _ (by decide!))
      apply border_pred_true
      · decide!
      · have hv : ((⟨⟨0, 1⟩, ⟨1, 0⟩⟩ : Seg).p - line1.p).cross
            (⟨⟨0, 1⟩, ⟨1, 0⟩⟩ : Seg).r = line1.p.y - 1 := by
          simp [Vec.cross]
        rw [hv]
        exact not_lt.mp htop
      · simp only [Vec.coord, Vec.add_x]
        norm_num
        linarith
      · simp only [Vec.coord, Vec.add_x]
        norm_num
        linarith
  | Y =>
    have hcc : (line1.getPointOnLine u).coord Axis.Y = line1.p.y + u * line1.r.y := by
      simp [Seg.getPointOnLine, Vec.coord]
    have hcc0 : 0 ≤ line1.p.y + u * line1.r.y := by
      nlinarith [mul_nonneg hu' hp.2.2.1, mul_nonneg hu0 hq.2.2.1]
    have hcc1 : line1.p.y + u * line1.r.y ≤ 1 := by
      nlinarith [mul_nonneg hu' (by linarith [hp.2.2.2] : (0 : ℚ) ≤ 1 - line1.p.y),
        mul_nonneg hu0 (by linarith [hq.2.2.2] : (0 : ℚ) ≤ 1 - (line1.p.y + line1.r.y))]
    rw [hcc]
    simp only [Canvas.parallelCands]
    by_cases hleft : |line1.p.x| < EPS
    · apply mem_filter_ne_nil _ _ (⟨⟨1, 1⟩, ⟨0, -1⟩⟩ : Seg) (hborders _ (by decide!))
      apply border_pred_true
      · decide!
      · have hv : ((⟨⟨1, 1⟩, ⟨0, -1⟩⟩ : Seg).p - line1.p).cross
            (⟨⟨1, 1⟩, ⟨0, -1⟩⟩ : Seg).r = line1.p.x - 1 := by
          simp [Vec.cross]
        rw [hv, abs_sub_comm]
        have h1m := (abs_lt.mp hleft).2
        rw [abs_of_nonneg (by linarith)]
        linarith
      · simp only [Vec.coord, Vec.add_y]
        norm_num
        linarith
      · simp only [Vec.coord, Vec.add_y]
        norm_num
        linarith
    · apply mem_filter_ne_nil _ _ (⟨⟨0, 0⟩, ⟨0, 1⟩⟩ : Seg) (hborders _ (by decide!))
      apply border_pred_true
      · decide!
      · have hv : ((⟨⟨0, 0⟩, ⟨0, 1⟩⟩ : Seg).p - line1.p).cross
            (⟨⟨0, 0⟩, ⟨0, 1⟩⟩ : Seg).r = -line1.p.x := by
          simp [Vec.cross]
        rw [hv, abs_neg]
        exact not_lt.mp hleft
      · simp only [Vec.coord, Vec.add_y]
        norm_num
        linarith
      · simp only [Vec.coord, Vec.add_y]
        norm_num
        linarith

/-- Claim C8, witness: the fresh canvas itself, with L1 the left border and
the sampled point its lower corner. -/
theorem claim8_orthogonal_candidates_nonempty_witness :
    initCanvas.parallelCands ⟨⟨0, 0⟩, ⟨0, 1⟩⟩
      ((Seg.getPointOnLine ⟨⟨0, 0⟩, ⟨0, 1⟩⟩ 0).coord (getXY ⟨⟨0, 0⟩, ⟨0, 1⟩⟩))
      (getXY ⟨⟨0, 0⟩, ⟨0, 1⟩⟩) ≠ [] :=
  claim8_orthogonal_candidates_nonempty initCanvas ⟨⟨0, 0⟩, ⟨0, 1⟩⟩ 0
    (fun b hb => hb) (by decide!) (by decide!) (by decide!) (by decide!)

end Mondrian
